import Mathlib

/-!
Verification of the celo-blockchain proxy subsystem's forward-message layer
(`consensus/istanbul/proxy/forward_message.go`) and the validator-enode share
message (`consensus/istanbul/proxy` types file).

Bytes are modelled as natural numbers below 256; byte strings as `List Nat`.
The RLP codec (the `rlp` package is outside the shown sources) is modelled
from the spec as the standard tagged length-prefixed scheme.
-/

/-- Big-endian interpretation of a byte string as a natural number. -/
def decodeBE (bs : List Nat) : Nat :=
  bs.foldl (fun acc b => acc * 256 + b) 0

/-- Fuel-driven minimal big-endian byte representation; the fuel only bounds
recursion depth and any fuel at least `n` gives the same answer. -/
def beBytesAux : Nat → Nat → List Nat
  | 0, _ => []
  | fuel + 1, n => if n = 0 then [] else beBytesAux fuel (n / 256) ++ [n % 256]

/-- Minimal big-endian byte representation of a natural number
(`beBytes 0 = []`). -/
def beBytes (n : Nat) : List Nat :=
  beBytesAux n n

/-- Fixed-width big-endian byte representation, keeping the low `w` bytes. -/
def bytesBEfix : Nat → Nat → List Nat
  | 0, _ => []
  | w + 1, n => bytesBEfix w (n / 256) ++ [n % 256]

theorem decodeBE_nil : decodeBE [] = 0 := rfl

theorem decodeBE_append_singleton (bs : List Nat) (b : Nat) :
    decodeBE (bs ++ [b]) = decodeBE bs * 256 + b := by
  simp [decodeBE, List.foldl_append]

theorem decodeBE_beBytesAux (fuel : Nat) :
    ∀ n, n ≤ fuel → decodeBE (beBytesAux fuel n) = n := by
  induction fuel with
  | zero => intro n hn; interval_cases n; rfl
  | succ fuel ih =>
    intro n hn
    by_cases h0 : n = 0
    · subst h0; simp [beBytesAux, decodeBE]
    · have hdiv : n / 256 ≤ fuel := by
        have : n / 256 < n := Nat.div_lt_self (Nat.pos_of_ne_zero h0) (by omega)
        omega
      simp only [beBytesAux, if_neg h0]
      rw [decodeBE_append_singleton, ih _ hdiv]
      omega

theorem decodeBE_beBytes (n : Nat) : decodeBE (beBytes n) = n :=
  decodeBE_beBytesAux n n (Nat.le_refl n)

theorem beBytesAux_length_le (fuel : Nat) :
    ∀ n k, n ≤ fuel → n < 256 ^ k → (beBytesAux fuel n).length ≤ k := by
  induction fuel with
  | zero => intro n k hn _; interval_cases n; simp [beBytesAux]
  | succ fuel ih =>
    intro n k hn hk
    by_cases h0 : n = 0
    · subst h0; simp [beBytesAux]
    · have hkpos : k ≠ 0 := by
        intro h; subst h; simp at hk; omega
      obtain ⟨k', rfl⟩ : ∃ k', k = k' + 1 := ⟨k - 1, by omega⟩
      have hdivlt : n / 256 < 256 ^ k' := by
        rw [Nat.div_lt_iff_lt_mul (by omega)]
        calc n < 256 ^ (k' + 1) := hk
        _ = 256 ^ k' * 256 := by ring
      have hdiv : n / 256 ≤ fuel := by
        have : n / 256 < n := Nat.div_lt_self (Nat.pos_of_ne_zero h0) (by omega)
        omega
      simp only [beBytesAux, if_neg h0]
      rw [List.length_append]
      have := ih (n / 256) k' hdiv hdivlt
      simp
      omega

theorem beBytes_length_le (n k : Nat) (h : n < 256 ^ k) :
    (beBytes n).length ≤ k :=
  beBytesAux_length_le n n k (Nat.le_refl n) h

theorem beBytesAux_lt_256 (fuel : Nat) :
    ∀ n b, b ∈ beBytesAux fuel n → b < 256 := by
  induction fuel with
  | zero => intro n b hb; simp [beBytesAux] at hb
  | succ fuel ih =>
    intro n b hb
    by_cases h0 : n = 0
    · subst h0; simp [beBytesAux] at hb
    · simp only [beBytesAux, if_neg h0, List.mem_append, List.mem_singleton] at hb
      rcases hb with hb | hb
      · exact ih _ _ hb
      · subst hb; exact Nat.mod_lt _ (by omega)

theorem beBytes_lt_256 (n b : Nat) (hb : b ∈ beBytes n) : b < 256 :=
  beBytesAux_lt_256 n n b hb

theorem beBytesAux_ne_nil (fuel n : Nat) (hn : 0 < n) (hf : n ≤ fuel) :
    beBytesAux fuel n ≠ [] := by
  cases fuel with
  | zero => omega
  | succ fuel =>
    simp only [beBytesAux, if_neg (by omega : ¬ n = 0)]
    simp

theorem beBytes_length_pos (n : Nat) (hn : 0 < n) : 0 < (beBytes n).length := by
  have := beBytesAux_ne_nil n n hn (Nat.le_refl n)
  cases h : beBytes n with
  | nil => exact absurd h this
  | cons a l => simp

theorem bytesBEfix_length (w : Nat) : ∀ n, (bytesBEfix w n).length = w := by
  induction w with
  | zero => intro n; rfl
  | succ w ih => intro n; simp [bytesBEfix, ih]

theorem bytesBEfix_lt_256 (w : Nat) :
    ∀ n b, b ∈ bytesBEfix w n → b < 256 := by
  induction w with
  | zero => intro n b hb; simp [bytesBEfix] at hb
  | succ w ih =>
    intro n b hb
    simp only [bytesBEfix, List.mem_append, List.mem_singleton] at hb
    rcases hb with hb | hb
    · exact ih _ _ hb
    · subst hb; exact Nat.mod_lt _ (by omega)

/-- Structured binary values of the wire codec.  Modelled from the spec:
the `rlp` package is outside the shown sources; §6 describes the codec as a
tagged length-prefixed scheme over byte strings and item lists, which is
exactly RLP's item structure. -/
inductive Rlp where
  | str : List Nat → Rlp
  | list : List Rlp → Rlp

/-- Header placed in front of a payload: a one-byte tag carrying the payload
length when it is short, otherwise a tag carrying the byte-length of the
big-endian payload length followed by that length. -/
def withLenHeader (base : Nat) (payload : List Nat) : List Nat :=
  if payload.length < 56 then (base + payload.length) :: payload
  else (base + 55 + (beBytes payload.length).length) :: (beBytes payload.length ++ payload)

mutual
/-- Serialization of one codec item (modelled from the spec, tagged
length-prefixed scheme): a single byte below 0x80 stands for itself, other
byte strings get a 0x80-based header, lists get a 0xc0-based header over the
concatenation of their members. -/
def encItem : Rlp → List Nat
  | .str bs => if bs.length = 1 ∧ bs.headI < 0x80 then bs else withLenHeader 0x80 bs
  | .list items => withLenHeader 0xc0 (encList items)
/-- Serialization of a sequence of codec items: the concatenation of the
member serializations. -/
def encList : List Rlp → List Nat
  | [] => []
  | x :: xs => encItem x ++ encList xs
end

mutual
/-- Fuel-driven deserialization of one codec item from a byte string,
returning the item and the unconsumed tail. -/
def decItem : Nat → List Nat → Option (Rlp × List Nat)
  | 0, _ => none
  | _ + 1, [] => none
  | fuel + 1, c :: bs =>
    if c < 0x80 then some (.str [c], bs)
    else if c < 0xb8 then
      let n := c - 0x80
      if bs.length < n then none
      else some (.str (bs.take n), bs.drop n)
    else if c < 0xc0 then
      let ll := c - 0xb7
      if bs.length < ll then none
      else
        let n := decodeBE (bs.take ll)
        let bs2 := bs.drop ll
        if bs2.length < n then none
        else some (.str (bs2.take n), bs2.drop n)
    else if c < 0xf8 then
      let n := c - 0xc0
      if bs.length < n then none
      else
        match decList fuel (bs.take n) with
        | some items => some (.list items, bs.drop n)
        | none => none
    else
      let ll := c - 0xf7
      if bs.length < ll then none
      else
        let n := decodeBE (bs.take ll)
        let bs2 := bs.drop ll
        if bs2.length < n then none
        else
          match decList fuel (bs2.take n) with
          | some items => some (.list items, bs2.drop n)
          | none => none
/-- Fuel-driven deserialization of a byte string as a maximal sequence of
codec items. -/
def decList : Nat → List Nat → Option (List Rlp)
  | 0, _ => none
  | _ + 1, [] => some []
  | fuel + 1, b :: bs =>
    match decItem fuel (b :: bs) with
    | some (x, rest) =>
      match decList fuel rest with
      | some xs => some (x :: xs)
      | none => none
    | none => none
end

mutual
/-- Wellformedness of a codec item: every byte of a byte string is an actual
byte and string lengths fit the 8-byte length field (always true of the Go
values, whose strings are machine-indexed). -/
def wfItem : Rlp → Prop
  | .str bs => (∀ b ∈ bs, b < 256) ∧ bs.length < 256 ^ 8
  | .list items => wfList items
/-- Wellformedness of a sequence of codec items. -/
def wfList : List Rlp → Prop
  | [] => True
  | x :: xs => wfItem x ∧ wfList xs
end

mutual
/-- Fuel sufficient to deserialize the serialization of an item. -/
def fuelItem : Rlp → Nat
  | .str _ => 1
  | .list items => fuelList items + 1
/-- Fuel sufficient to deserialize the serialization of a sequence. -/
def fuelList : List Rlp → Nat
  | [] => 1
  | x :: xs => max (fuelItem x) (fuelList xs) + 1
end

theorem withLenHeader_ne_nil (base : Nat) (payload : List Nat) :
    withLenHeader base payload ≠ [] := by
  unfold withLenHeader
  split <;> simp

theorem encItem_ne_nil (x : Rlp) : encItem x ≠ [] := by
  cases x with
  | str bs =>
    simp only [encItem]
    split
    · rename_i h
      intro hc
      rw [hc] at h
      simp at h
    · exact withLenHeader_ne_nil _ _
  | list items => exact withLenHeader_ne_nil _ _

theorem fuelItem_pos (x : Rlp) : 1 ≤ fuelItem x := by
  cases x <;> simp [fuelItem]

theorem fuelList_pos (xs : List Rlp) : 1 ≤ fuelList xs := by
  cases xs <;> simp [fuelList]

theorem decodeBE_bytesBEfix (w : Nat) :
    ∀ n, decodeBE (bytesBEfix w n) = n % 256 ^ w := by
  induction w with
  | zero => intro n; simp [bytesBEfix, decodeBE, Nat.mod_one]
  | succ w ih =>
    intro n
    simp only [bytesBEfix]
    rw [decodeBE_append_singleton, ih]
    have hpow : (256 : Nat) ^ (w + 1) = 256 * 256 ^ w := by ring
    rw [hpow, Nat.mod_mul]
    have := Nat.mod_lt (n / 256) (show 0 < 256 ^ w from Nat.pos_pow_of_pos _ (by omega))
    omega

theorem decItem_single (fuel c : Nat) (bs : List Nat) (hc : c < 0x80) :
    decItem (fuel + 1) (c :: bs) = some (.str [c], bs) := by
  simp only [decItem]
  rw [if_pos hc]

theorem decItem_shortStr (fuel c : Nat) (bs : List Nat)
    (h1 : 0x80 ≤ c) (h2 : c < 0xb8) (h3 : c - 0x80 ≤ bs.length) :
    decItem (fuel + 1) (c :: bs) =
      some (.str (bs.take (c - 0x80)), bs.drop (c - 0x80)) := by
  simp only [decItem]
  rw [if_neg (by omega), if_pos h2, if_neg (by omega)]

theorem decItem_longStr (fuel c : Nat) (bs : List Nat)
    (h1 : 0xb8 ≤ c) (h2 : c < 0xc0) (h3 : c - 0xb7 ≤ bs.length)
    (h4 : decodeBE (bs.take (c - 0xb7)) ≤ (bs.drop (c - 0xb7)).length) :
    decItem (fuel + 1) (c :: bs) =
      some (.str ((bs.drop (c - 0xb7)).take (decodeBE (bs.take (c - 0xb7)))),
            (bs.drop (c - 0xb7)).drop (decodeBE (bs.take (c - 0xb7)))) := by
  simp only [decItem]
  rw [if_neg (by omega), if_neg (by omega), if_pos h2, if_neg (by omega),
    if_neg (by omega)]

theorem decItem_shortList (fuel c : Nat) (bs : List Nat)
    (h1 : 0xc0 ≤ c) (h2 : c < 0xf8) (h3 : c - 0xc0 ≤ bs.length) :
    decItem (fuel + 1) (c :: bs) =
      match decList fuel (bs.take (c - 0xc0)) with
      | some items => some (.list items, bs.drop (c - 0xc0))
      | none => none := by
  simp only [decItem]
  rw [if_neg (by omega), if_neg (by omega), if_neg (by omega), if_pos h2,
    if_neg (by omega)]

theorem decItem_longList (fuel c : Nat) (bs : List Nat)
    (h1 : 0xf8 ≤ c) (h3 : c - 0xf7 ≤ bs.length)
    (h4 : decodeBE (bs.take (c - 0xf7)) ≤ (bs.drop (c - 0xf7)).length) :
    decItem (fuel + 1) (c :: bs) =
      match decList fuel ((bs.drop (c - 0xf7)).take (decodeBE (bs.take (c - 0xf7)))) with
      | some items =>
          some (.list items, (bs.drop (c - 0xf7)).drop (decodeBE (bs.take (c - 0xf7))))
      | none => none := by
  simp only [decItem]
  rw [if_neg (by omega), if_neg (by omega), if_neg (by omega), if_neg (by omega),
    if_neg (by omega), if_neg (by omega)]

/-- Main inversion lemma for the codec: with enough fuel, deserializing the
serialization of a wellformed item returns the item and leaves any trailing
bytes untouched (and likewise for sequences). -/
theorem dec_enc_aux (fuel : Nat) :
    (∀ x r, wfItem x → fuelItem x ≤ fuel → decItem fuel (encItem x ++ r) = some (x, r)) ∧
    (∀ xs, wfList xs → fuelList xs ≤ fuel → decList fuel (encList xs) = some xs) := by
  induction fuel with
  | zero =>
    constructor
    · intro x r _ hf
      have := fuelItem_pos x
      omega
    · intro xs _ hf
      have := fuelList_pos xs
      omega
  | succ fuel ih =>
    obtain ⟨ihI, ihL⟩ := ih
    constructor
    · intro x r hwf hf
      cases x with
      | str bs =>
        simp only [wfItem] at hwf
        simp only [encItem]
        by_cases hsb : bs.length = 1 ∧ bs.headI < 0x80
        · obtain ⟨b, rfl⟩ := List.length_eq_one.mp hsb.1
          have hb : b < 0x80 := by simpa using hsb.2
          rw [if_pos hsb, List.singleton_append]
          exact decItem_single fuel b r hb
        · rw [if_neg hsb]
          unfold withLenHeader
          by_cases hlen : bs.length < 56
          · rw [if_pos hlen, List.cons_append]
            rw [decItem_shortStr _ _ _ (by omega) (by omega)
              (by simp only [List.length_append]; omega)]
            have hn : 0x80 + bs.length - 0x80 = bs.length := by omega
            rw [hn, List.take_left, List.drop_left]
          · rw [if_neg hlen, List.cons_append, List.append_assoc]
            have hk1 : 0 < (beBytes bs.length).length :=
              beBytes_length_pos _ (by omega)
            have hk8 : (beBytes bs.length).length ≤ 8 :=
              beBytes_length_le _ 8 hwf.2
            have hck : 0x80 + 55 + (beBytes bs.length).length - 0xb7
                = (beBytes bs.length).length := by omega
            rw [decItem_longStr _ _ _ (by omega) (by omega)
              (by rw [hck]; simp [List.length_append])
              (by rw [hck, List.take_left, List.drop_left, decodeBE_beBytes]
                  simp [List.length_append])]
            rw [hck, List.take_left, List.drop_left, decodeBE_beBytes,
              List.take_left, List.drop_left]
      | list items =>
        simp only [wfItem] at hwf
        have hfl : fuelList items ≤ fuel := by
          simp only [fuelItem] at hf; omega
        simp only [encItem]
        unfold withLenHeader
        by_cases hlen : (encList items).length < 56
        · rw [if_pos hlen, List.cons_append]
          rw [decItem_shortList _ _ _ (by omega) (by omega)
            (by simp only [List.length_append]; omega)]
          have hn : 0xc0 + (encList items).length - 0xc0 = (encList items).length := by
            omega
          rw [hn, List.take_left, List.drop_left, ihL items hwf hfl]
        · rw [if_neg hlen, List.cons_append, List.append_assoc]
          have hk1 : 0 < (beBytes (encList items).length).length :=
            beBytes_length_pos _ (by omega)
          have hck : 0xc0 + 55 + (beBytes (encList items).length).length - 0xf7
              = (beBytes (encList items).length).length := by omega
          rw [decItem_longList _ _ _ (by omega)
            (by rw [hck]; simp [List.length_append])
            (by rw [hck, List.take_left, List.drop_left, decodeBE_beBytes]
                simp [List.length_append])]
          rw [hck, List.take_left, List.drop_left, decodeBE_beBytes,
            List.take_left, List.drop_left, ihL items hwf hfl]
    · intro xs hwf hf
      cases xs with
      | nil => simp [encList, decList]
      | cons x xs =>
        simp only [wfList] at hwf
        simp only [fuelList] at hf
        have hfx : fuelItem x ≤ fuel := by omega
        have hfxs : fuelList xs ≤ fuel := by omega
        obtain ⟨e, es, he⟩ : ∃ e es, encItem x = e :: es := by
          cases h : encItem x with
          | nil => exact absurd h (encItem_ne_nil x)
          | cons e es => exact ⟨e, es, rfl⟩
        simp only [encList]
        rw [he, List.cons_append]
        simp only [decList]
        rw [← List.cons_append, ← he, ihI x (encList xs) hwf.1 hfx]
        simp only [ihL xs hwf.2 hfxs]

/-- Fuel bound: twice the serialized length always suffices to deserialize. -/
theorem fuel_le_twice_len (n : Nat) :
    (∀ x, fuelItem x ≤ n → fuelItem x ≤ 2 * (encItem x).length) ∧
    (∀ xs, fuelList xs ≤ n → fuelList xs ≤ 2 * (encList xs).length + 1) := by
  induction n with
  | zero =>
    constructor
    · intro x hx; have := fuelItem_pos x; omega
    · intro xs hxs; have := fuelList_pos xs; omega
  | succ n ih =>
    obtain ⟨ihI, ihL⟩ := ih
    constructor
    · intro x hx
      cases x with
      | str bs =>
        have h1 : encItem (.str bs) ≠ [] := encItem_ne_nil _
        have h2 : 1 ≤ (encItem (.str bs)).length := by
          cases h : encItem (.str bs) with
          | nil => exact absurd h h1
          | cons a l => simp
        simp only [fuelItem]
        omega
      | list items =>
        simp only [fuelItem] at hx ⊢
        have hfl := ihL items (by omega)
        have hlen : (encList items).length + 1 ≤ (encItem (.list items)).length := by
          simp only [encItem]
          unfold withLenHeader
          split <;> simp [List.length_append]
        omega
    · intro xs hxs
      cases xs with
      | nil => simp [fuelList, encList]
      | cons x xs =>
        simp only [fuelList] at hxs ⊢
        have hfx := ihI x (by omega)
        have hfxs := ihL xs (by omega)
        have h1 : encItem x ≠ [] := encItem_ne_nil _
        have h2 : 1 ≤ (encItem x).length := by
          cases h : encItem x with
          | nil => exact absurd h h1
          | cons a l => simp
        simp only [encList, List.length_append]
        omega

/-- Top-level deserialization of a byte string as a single codec item
consuming the whole input (models `rlp.DecodeBytes`; the fuel is provably
sufficient for every serialized wellformed value). -/
def rlpDecode (bs : List Nat) : Option Rlp :=
  match decItem (2 * bs.length + 1) bs with
  | some (x, []) => some x
  | _ => none

theorem rlpDecode_encItem (x : Rlp) (hwf : wfItem x) :
    rlpDecode (encItem x) = some x := by
  unfold rlpDecode
  have hf : fuelItem x ≤ 2 * (encItem x).length :=
    (fuel_le_twice_len (fuelItem x)).1 x (Nat.le_refl _)
  have hdec := (dec_enc_aux (2 * (encItem x).length + 1)).1 x [] hwf (by omega)
  rw [List.append_nil] at hdec
  rw [hdec]

/-- Codec form of a 20-byte `common.Address` value (addresses are modelled as
naturals below 256 to the 20th power). -/
def addrToRlp (a : Nat) : Rlp := .str (bytesBEfix 20 a)

/-- Codec form of a Go `uint64`: its minimal big-endian bytes. -/
def uintToRlp (n : Nat) : Rlp := .str (beBytes n)

abbrev wfAddr (a : Nat) : Prop := a < 256 ^ 20

abbrev wfUint (n : Nat) : Prop := n < 256 ^ 8

abbrev wfBytes (bs : List Nat) : Prop := (∀ b ∈ bs, b < 256) ∧ bs.length < 256 ^ 8

theorem wfItem_addrToRlp (a : Nat) : wfItem (addrToRlp a) := by
  constructor
  · intro b hb; exact bytesBEfix_lt_256 20 a b hb
  · rw [bytesBEfix_length]; norm_num

theorem wfItem_uintToRlp (n : Nat) (h : wfUint n) : wfItem (uintToRlp n) := by
  constructor
  · intro b hb; exact beBytes_lt_256 n b hb
  · have := beBytes_length_le n 8 h; norm_num; omega

theorem wfItem_str (bs : List Nat) (h : wfBytes bs) : wfItem (.str bs) := h

/-- Modelled from the spec: `istanbul.Message` (the `istanbul` package types
are outside the shown sources) — the outer consensus-message envelope with a
message code, opaque inner bytes, the sender address and a signature; a
forward message carries an empty signature since it is not independently
signed. -/
structure IstMessage where
  Code : Nat
  Msg : List Nat
  Address : Nat
  Signature : List Nat
deriving DecidableEq, Repr

/-- Codec form of an `istanbul.Message` (field order of the Go struct). -/
def istMessageToRlp (m : IstMessage) : Rlp :=
  .list [uintToRlp m.Code, .str m.Msg, addrToRlp m.Address, .str m.Signature]

/-- Models `istanbul.Message.Payload()`: the serialized message. -/
def messagePayload (m : IstMessage) : List Nat :=
  encItem (istMessageToRlp m)

/-- Structural read-back of an `istanbul.Message` from a codec item: a
four-field list whose code fits a `uint64` and whose address is 20 bytes. -/
def rlpToIstMessage : Rlp → Option IstMessage
  | .list [.str c, .str msg, .str addr, .str sig] =>
    if c.length ≤ 8 ∧ addr.length = 20 then
      some ⟨decodeBE c, msg, decodeBE addr, sig⟩
    else none
  | _ => none

/-- Models `istanbul.Message.FromPayload(payload, nil)`: deserialize the
outer envelope; with a nil validation function no signature check happens. -/
def fromPayload (payload : List Nat) : Option IstMessage :=
  match rlpDecode payload with
  | some x => rlpToIstMessage x
  | none => none

/-- Model of `istanbul.ForwardMessage` (declared in the `istanbul` package,
outside the shown sources; field shape per spec §6: code, destination
addresses, inner message bytes). -/
structure ForwardMessage where
  Code : Nat
  DestAddresses : List Nat
  Msg : List Nat
deriving DecidableEq, Repr

/-- Codec form of a `ForwardMessage` (field order of the Go struct). -/
def forwardMessageToRlp (f : ForwardMessage) : Rlp :=
  .list [uintToRlp f.Code, .list (f.DestAddresses.map addrToRlp), .str f.Msg]

/-- Models `rlp.EncodeToBytes(fwdMessage)`. -/
def encodeForwardMessage (f : ForwardMessage) : List Nat :=
  encItem (forwardMessageToRlp f)

/-- Structural read-back of a list of 20-byte addresses from codec items. -/
def rlpToAddrList : List Rlp → Option (List Nat)
  | [] => some []
  | .str a :: tl =>
    if a.length = 20 then
      match rlpToAddrList tl with
      | some rest => some (decodeBE a :: rest)
      | none => none
    else none
  | _ => none

/-- Structural read-back of a `ForwardMessage` from a codec item. -/
def rlpToForwardMessage : Rlp → Option ForwardMessage
  | .list [.str c, .list dests, .str msg] =>
    if c.length ≤ 8 then
      match rlpToAddrList dests with
      | some da => some ⟨decodeBE c, da, msg⟩
      | none => none
    else none
  | _ => none

/-- Models `istMsg.Decode(&fwdMsg)`: deserialize the message body as a
`ForwardMessage`. -/
def decodeForwardMessage (bs : List Nat) : Option ForwardMessage :=
  match rlpDecode bs with
  | some x => rlpToForwardMessage x
  | none => none

/-- Model of `sharedValidatorEnode` of the proxy package: one record of the
validator-enode share message. -/
structure sharedValidatorEnode where
  Address : Nat
  EnodeURL : List Nat
  Version : Nat
deriving DecidableEq, Repr

/-- Model of `valEnodesShareData` of the proxy package. -/
structure valEnodesShareData where
  ValEnodes : List sharedValidatorEnode
deriving DecidableEq, Repr

/-- Codec form of one shared-enode record (field order of the Go struct). -/
def sharedValidatorEnodeToRlp (s : sharedValidatorEnode) : Rlp :=
  .list [addrToRlp s.Address, .str s.EnodeURL, uintToRlp s.Version]

/-- Models `valEnodesShareData.EncodeRLP`, which serializes the one-field
wrapper `[]interface\x7b\x7d\x7bsd.ValEnodes\x7d`: a one-element list holding the record
list. -/
def encodeValEnodesShareData (sd : valEnodesShareData) : List Nat :=
  encItem (.list [.list (sd.ValEnodes.map sharedValidatorEnodeToRlp)])

/-- Structural read-back of one shared-enode record. -/
def rlpToSharedValidatorEnode : Rlp → Option sharedValidatorEnode
  | .list [.str a, .str u, .str v] =>
    if a.length = 20 ∧ v.length ≤ 8 then
      some ⟨decodeBE a, u, decodeBE v⟩
    else none
  | _ => none

/-- Structural read-back of the record list. -/
def rlpToSharedList : List Rlp → Option (List sharedValidatorEnode)
  | [] => some []
  | x :: tl =>
    match rlpToSharedValidatorEnode x, rlpToSharedList tl with
    | some s, some ss => some (s :: ss)
    | _, _ => none

/-- Models `valEnodesShareData.DecodeRLP`, which decodes into the one-field
wrapper struct and stores its `ValEnodes` field. -/
def decodeValEnodesShareData (bs : List Nat) : Option valEnodesShareData :=
  match rlpDecode bs with
  | some (.list [.list entries]) =>
    match rlpToSharedList entries with
    | some ss => some ⟨ss⟩
    | none => none
  | _ => none

abbrev wfSharedValidatorEnode (s : sharedValidatorEnode) : Prop :=
  wfAddr s.Address ∧ wfBytes s.EnodeURL ∧ wfUint s.Version

abbrev wfValEnodesShareData (sd : valEnodesShareData) : Prop :=
  ∀ s ∈ sd.ValEnodes, wfSharedValidatorEnode s

theorem wfItem_sharedValidatorEnodeToRlp (s : sharedValidatorEnode)
    (h : wfSharedValidatorEnode s) : wfItem (sharedValidatorEnodeToRlp s) := by
  obtain ⟨h1, h2, h3⟩ := h
  exact ⟨wfItem_addrToRlp s.Address, wfItem_str _ h2, wfItem_uintToRlp _ h3, trivial⟩

theorem wfList_sharedMap (l : List sharedValidatorEnode)
    (h : ∀ s ∈ l, wfSharedValidatorEnode s) :
    wfList (l.map sharedValidatorEnodeToRlp) := by
  induction l with
  | nil => trivial
  | cons s tl ih =>
    exact ⟨wfItem_sharedValidatorEnodeToRlp s (h s (by simp)),
      ih (fun x hx => h x (by simp [hx]))⟩

theorem rlpToSharedValidatorEnode_roundtrip (s : sharedValidatorEnode)
    (h : wfSharedValidatorEnode s) :
    rlpToSharedValidatorEnode (sharedValidatorEnodeToRlp s) = some s := by
  obtain ⟨h1, h2, h3⟩ := h
  simp only [sharedValidatorEnodeToRlp, addrToRlp, uintToRlp, rlpToSharedValidatorEnode]
  rw [if_pos ⟨bytesBEfix_length 20 s.Address, beBytes_length_le _ 8 h3⟩]
  rw [decodeBE_bytesBEfix, decodeBE_beBytes, Nat.mod_eq_of_lt h1]

theorem rlpToSharedList_roundtrip (l : List sharedValidatorEnode)
    (h : ∀ s ∈ l, wfSharedValidatorEnode s) :
    rlpToSharedList (l.map sharedValidatorEnodeToRlp) = some l := by
  induction l with
  | nil => rfl
  | cons s tl ih =>
    simp only [List.map_cons, rlpToSharedList]
    rw [rlpToSharedValidatorEnode_roundtrip s (h s (by simp)),
      ih (fun x hx => h x (by simp [hx]))]

/-- C8: for every `valEnodesShareData` value (with real byte strings and
machine-sized numbers, which all Go values are), decoding via `DecodeRLP` the
bytes produced by `EncodeRLP` yields a value equal to the original. -/
theorem c8_decode_encode_valEnodesShareData (sd : valEnodesShareData)
    (hwf : wfValEnodesShareData sd) :
    decodeValEnodesShareData (encodeValEnodesShareData sd) = some sd := by
  unfold decodeValEnodesShareData encodeValEnodesShareData
  have hw : wfItem (.list [.list (sd.ValEnodes.map sharedValidatorEnodeToRlp)]) :=
    ⟨wfList_sharedMap sd.ValEnodes hwf, trivial⟩
  rw [rlpDecode_encItem _ hw]
  simp only [rlpToSharedList_roundtrip sd.ValEnodes hwf]

/-- Witness for C8 at a concrete share batch. -/
theorem c8_decode_encode_valEnodesShareData_witness :
    wfValEnodesShareData ⟨[⟨3, [104, 105], 7⟩, ⟨2 ^ 159, [], 0⟩]⟩ ∧
    decodeValEnodesShareData
        (encodeValEnodesShareData ⟨[⟨3, [104, 105], 7⟩, ⟨2 ^ 159, [], 0⟩]⟩)
      = some ⟨[⟨3, [104, 105], 7⟩, ⟨2 ^ 159, [], 0⟩]⟩ :=
  ⟨by decide, c8_decode_encode_valEnodesShareData _ (by decide)⟩

/-- Model of a `consensus.Peer`: only its node id (`peer.Node().ID()`) is
consulted by this subsystem. -/
structure Peer where
  nodeId : Nat
deriving DecidableEq, Repr

/-- Model of the `proxy` struct of the proxy package: internal and external
enode identities, the optional live peer connection, and the disconnect
timestamp. -/
structure proxy where
  node : Nat
  externalNode : Nat
  peer : Option Peer
  disconnectTS : Nat
deriving DecidableEq, Repr

/-- Errors observable through this layer: outer-envelope decode failure,
`ForwardMessage` decode failure, and opaque errors returned by external
collaborators. -/
inductive Err where
  | fromPayloadErr
  | decodeForwardErr
  | external (n : Nat)
deriving DecidableEq, Repr

/-- Modelled from the spec: the subprotocol message code `istanbul.FwdMsg`
(declared in the `istanbul` package, outside the shown sources; the numeric
value is immaterial here). -/
def FwdMsg : Nat := 0x14

/-- Modelled from the spec: the message code `istanbul.EnodeCertificateMsg`
(declared in the `istanbul` package, outside the shown sources; the numeric
value is immaterial here, only its identity). -/
def EnodeCertificateMsg : Nat := 0x17

/-- Environment of the proxy-side engine: the outcome of the external
`backend.Multicast` call and of `handleEnodeCertificateFromFwdMsg`
(defined elsewhere in the repository); `none` means success. -/
structure ProxyEnv where
  multicastResult : List Nat → List Nat → Nat → Bool → Option Err
  enodeCertResult : List Nat → Option Err

/-- External calls made by `handleForwardMsg`, in order. -/
inductive PEvent where
  | enodeCertCheck (msg : List Nat)
  | multicast (destAddresses : List Nat) (payload : List Nat) (ethMsgCode : Nat)
      (sendToSelf : Bool)
deriving DecidableEq, Repr

/-- Result of `handleForwardMsg`: the `(handled, error)` return pair, the
trace of external calls, and the (unchanged) registered proxied validator. -/
structure HandleResult where
  handled : Bool
  err : Option Err
  events : List PEvent
  proxiedValidator : Option Peer
deriving DecidableEq, Repr

/-- Model of `proxyEngine.handleForwardMsg` (forward_message.go:99-147):
authenticate the sender against the registered proxied validator, decode the
outer `istanbul.Message`, decode the inner `ForwardMessage`, run the enode
certificate handling when the inner code asks for it, then multicast the
inner payload unchanged. -/
def handleForwardMsg (proxiedValidator : Option Peer) (env : ProxyEnv)
    (peer : Peer) (payload : List Nat) : HandleResult :=
  match proxiedValidator with
  | none => ⟨false, none, [], none⟩
  | some pv =>
    if pv.nodeId = peer.nodeId then
      match fromPayload payload with
      | none => ⟨true, some .fromPayloadErr, [], some pv⟩
      | some istMsg =>
        match decodeForwardMessage istMsg.Msg with
        | none => ⟨true, some .decodeForwardErr, [], some pv⟩
        | some fwdMsg =>
          if fwdMsg.Code = EnodeCertificateMsg then
            match env.enodeCertResult fwdMsg.Msg with
            | some e => ⟨true, some e, [.enodeCertCheck fwdMsg.Msg], some pv⟩
            | none =>
              ⟨true, env.multicastResult fwdMsg.DestAddresses fwdMsg.Msg fwdMsg.Code false,
                [.enodeCertCheck fwdMsg.Msg,
                  .multicast fwdMsg.DestAddresses fwdMsg.Msg fwdMsg.Code false], some pv⟩
          else
            ⟨true, env.multicastResult fwdMsg.DestAddresses fwdMsg.Msg fwdMsg.Code false,
              [.multicast fwdMsg.DestAddresses fwdMsg.Msg fwdMsg.Code false], some pv⟩
    else ⟨false, none, [], some pv⟩

/-- One `backend.Unicast` transmission recorded on the send path. -/
structure UnicastCall where
  peer : Peer
  payload : List Nat
  code : Nat
deriving DecidableEq, Repr

/-- Environment of the proxied-validator-side engine:
`ph.GetValidatorAssignments` (the proxy handler lives elsewhere in the
repository), `backend.Address()`, and the transport-level outcome of each
`Unicast` transmission.  The source statement
`pv.backend.Unicast(proxyPeer, fwdMsgPayload, istanbul.FwdMsg)` discards any
outcome, so `unicastResult` is available here but never consulted by
`SendForwardMsg`. -/
structure PVEnv where
  getValidatorAssignments : List Nat → Except Err (List (Nat × Option proxy))
  backendAddress : Nat
  unicastResult : Peer → List Nat → Nat → Option Err

/-- Insertion of one validator address under a proxy peer key, mirroring the
map-append `proxyToAddressesMap[proxy.peer] = append(..., valAddress)`. -/
def addAddrToMap : List (Peer × List Nat) → Peer → Nat → List (Peer × List Nat)
  | [], p, a => [(p, [a])]
  | (q, qa) :: tl, p, a =>
    if q = p then (q, qa ++ [a]) :: tl else (q, qa) :: addAddrToMap tl p a

/-- Mirrors the first loop of `SendForwardMsg` (forward_message.go:43-51):
group validator addresses by their assigned proxy's connected peer, skipping
validators with no proxy or an unconnected proxy. -/
def buildAssignmentMapAux (acc : List (Peer × List Nat)) :
    List (Nat × Option proxy) → List (Peer × List Nat)
  | [] => acc
  | (valAddress, pr) :: tl =>
    match pr with
    | some prx =>
      match prx.peer with
      | some pe => buildAssignmentMapAux (addAddrToMap acc pe valAddress) tl
      | none => buildAssignmentMapAux acc tl
    | none => buildAssignmentMapAux acc tl

/-- Proxy-peer to validator-addresses map built from the assignments. -/
def buildAssignmentMap (valAssignments : List (Nat × Option proxy)) :
    List (Peer × List Nat) :=
  buildAssignmentMapAux [] valAssignments

/-- Mirrors `proxyToAddressesMap[proxyPeer] = nil` for an explicitly given
proxy peer: key set (or reset) with an empty address list. -/
def setPeerNil : List (Peer × List Nat) → Peer → List (Peer × List Nat)
  | [], p => [(p, [])]
  | (q, qa) :: tl, p =>
    if q = p then (q, []) :: tl else (q, qa) :: setPeerNil tl p

/-- The proxy-peer map built from an explicit proxy-peer list
(forward_message.go:58-61). -/
def explicitPeersMap (proxyPeers : List Peer) : List (Peer × List Nat) :=
  proxyPeers.foldl setPeerNil []

/-- Lookup in the `proxySpecificPayloads` map (keyed by enode id); the entry
value is itself a possibly-nil byte slice. -/
def lookupPSP : List (Nat × Option (List Nat)) → Nat → Option (Option (List Nat))
  | [], _ => none
  | (k, v) :: tl, i => if k = i then some v else lookupPSP tl i

/-- Mirrors forward_message.go:68-72: the message to forward to a proxy peer
is the per-relay override payload when `proxySpecificPayloads` has an entry
for that peer's node id, and the shared payload otherwise. -/
def resolvePayload (proxySpecificPayloads : List (Nat × Option (List Nat)))
    (payload : Option (List Nat)) (p : Peer) : Option (List Nat) :=
  match lookupPSP proxySpecificPayloads p.nodeId with
  | some v => v
  | none => payload

/-- Mirrors the send loop of `SendForwardMsg` (forward_message.go:64-96):
for each proxy peer with a non-nil resolved payload, wrap the payload in a
`ForwardMessage`, wrap that in an unsigned `istanbul.Message` with code
`FwdMsg`, serialize, and hand it to `Unicast`.  Serialization of these value
shapes cannot fail, so the encode error returns of the source are dead
branches here; the `Unicast` outcome is discarded by the source and so never
inspected. -/
def sendLoop (ownAddr ethMsgCode : Nat) (payload : Option (List Nat))
    (proxySpecificPayloads : List (Nat × Option (List Nat))) :
    List (Peer × List Nat) → List UnicastCall
  | [] => []
  | (p, valAddresses) :: tl =>
    match resolvePayload proxySpecificPayloads payload p with
    | none => sendLoop ownAddr ethMsgCode payload proxySpecificPayloads tl
    | some msgToForward =>
      ⟨p, messagePayload ⟨FwdMsg,
          encodeForwardMessage ⟨ethMsgCode, valAddresses, msgToForward⟩,
          ownAddr, []⟩, FwdMsg⟩
        :: sendLoop ownAddr ethMsgCode payload proxySpecificPayloads tl

/-- Model of `proxiedValidatorEngine.SendForwardMsg`
(forward_message.go:27-97): returns the `error` result paired with the list
of `Unicast` transmissions made, in order. -/
def SendForwardMsg (env : PVEnv) (proxyPeers : Option (List Peer))
    (validatorAddresses : List Nat) (ethMsgCode : Nat)
    (payload : Option (List Nat))
    (proxySpecificPayloads : List (Nat × Option (List Nat))) :
    Option Err × List UnicastCall :=
  match proxyPeers with
  | none =>
    match env.getValidatorAssignments validatorAddresses with
    | .error e => (some e, [])
    | .ok valAssignments =>
      if buildAssignmentMap valAssignments = [] then (none, [])
      else
        (none, sendLoop env.backendAddress ethMsgCode payload
          proxySpecificPayloads (buildAssignmentMap valAssignments))
  | some ps =>
    (none, sendLoop env.backendAddress ethMsgCode payload
      proxySpecificPayloads (explicitPeersMap ps))

/-- C1: for every peer whose node id differs from the registered proxied
validator's node id, and also when no proxied validator is registered,
`handleForwardMsg` returns `(handled=false, error=nil)`, performs no external
call (in particular no multicast) and leaves the registration unchanged. -/
theorem c1_handleForwardMsg_ignores_non_validator (st : Option Peer)
    (env : ProxyEnv) (peer : Peer) (payload : List Nat)
    (h : ∀ pv, st = some pv → pv.nodeId ≠ peer.nodeId) :
    handleForwardMsg st env peer payload = ⟨false, none, [], st⟩ := by
  cases st with
  | none => rfl
  | some pv =>
    have hne : ¬ pv.nodeId = peer.nodeId := h pv rfl
    simp [handleForwardMsg, hne]

/-- Witness for C1 at a concrete mismatched peer. -/
theorem c1_handleForwardMsg_ignores_non_validator_witness :
    handleForwardMsg (some ⟨5⟩) ⟨fun _ _ _ _ => none, fun _ => none⟩ ⟨6⟩ [0]
      = ⟨false, none, [], some ⟨5⟩⟩ :=
  c1_handleForwardMsg_ignores_non_validator _ _ _ _
    (fun pv hpv => by cases hpv; decide)

/-- C3: every forward message from the registered proxied validator whose
outer envelope decodes is answered with `handled=true`, whatever the rest of
the processing does. -/
theorem c3_handleForwardMsg_handled (pv peer : Peer) (env : ProxyEnv)
    (payload : List Nat) (m : IstMessage)
    (hid : pv.nodeId = peer.nodeId) (hdec : fromPayload payload = some m) :
    (handleForwardMsg (some pv) env peer payload).handled = true := by
  cases hd : decodeForwardMessage m.Msg with
  | none => simp [handleForwardMsg, hid, hdec, hd]
  | some fwd =>
    by_cases hc : fwd.Code = EnodeCertificateMsg
    · cases he : env.enodeCertResult fwd.Msg with
      | none => simp [handleForwardMsg, hid, hdec, hd, hc, he]
      | some e => simp [handleForwardMsg, hid, hdec, hd, hc, he]
    · simp [handleForwardMsg, hid, hdec, hd, hc]

/-- Witness for C3 at a concrete decodable payload. -/
theorem c3_handleForwardMsg_handled_witness :
    fromPayload (messagePayload ⟨20, [1], 9, []⟩) = some ⟨20, [1], 9, []⟩ ∧
    (handleForwardMsg (some ⟨1⟩) ⟨fun _ _ _ _ => none, fun _ => none⟩ ⟨1⟩
        (messagePayload ⟨20, [1], 9, []⟩)).handled = true :=
  ⟨by decide, c3_handleForwardMsg_handled ⟨1⟩ ⟨1⟩ _ _ ⟨20, [1], 9, []⟩ rfl (by decide)⟩

/-- C4: on the success path `handleForwardMsg` multicasts exactly the decoded
destination addresses, the decoded inner payload bytes unchanged and the
decoded inner code (with `sendToSelf = false`), and its error result is
exactly the `Multicast` outcome, under `handled=true`. -/
theorem c4_handleForwardMsg_multicast (pv peer : Peer) (env : ProxyEnv)
    (payload : List Nat) (m : IstMessage) (fwd : ForwardMessage)
    (hid : pv.nodeId = peer.nodeId)
    (h1 : fromPayload payload = some m)
    (h2 : decodeForwardMessage m.Msg = some fwd)
    (h3 : fwd.Code = EnodeCertificateMsg → env.enodeCertResult fwd.Msg = none) :
    handleForwardMsg (some pv) env peer payload
      = ⟨true, env.multicastResult fwd.DestAddresses fwd.Msg fwd.Code false,
          (if fwd.Code = EnodeCertificateMsg
            then [PEvent.enodeCertCheck fwd.Msg] else [])
            ++ [PEvent.multicast fwd.DestAddresses fwd.Msg fwd.Code false],
          some pv⟩ := by
  by_cases hc : fwd.Code = EnodeCertificateMsg
  · simp [handleForwardMsg, hid, h1, h2, hc, h3 hc]
  · simp [handleForwardMsg, hid, h1, h2, hc]

/-- Witness for C4 at a concrete forward message. -/
theorem c4_handleForwardMsg_multicast_witness :
    handleForwardMsg (some ⟨1⟩) ⟨fun _ _ _ _ => none, fun _ => none⟩ ⟨1⟩
        (messagePayload ⟨20, encodeForwardMessage ⟨9, [5], [1, 2]⟩, 3, []⟩)
      = ⟨true, none, [PEvent.multicast [5] [1, 2] 9 false], some ⟨1⟩⟩ := by
  have h := c4_handleForwardMsg_multicast ⟨1⟩ ⟨1⟩
    ⟨fun _ _ _ _ => none, fun _ => none⟩
    (messagePayload ⟨20, encodeForwardMessage ⟨9, [5], [1, 2]⟩, 3, []⟩)
    ⟨20, encodeForwardMessage ⟨9, [5], [1, 2]⟩, 3, []⟩ ⟨9, [5], [1, 2]⟩
    rfl (by decide) (by decide) (fun hcode => absurd hcode (by decide))
  simpa using h

/-- C5: a payload from the registered proxied validator that fails outer or
inner decoding is answered with `handled=true` and a non-nil error, with no
multicast (no external call at all). -/
theorem c5_handleForwardMsg_decode_failure (pv peer : Peer) (env : ProxyEnv)
    (payload : List Nat)
    (hid : pv.nodeId = peer.nodeId)
    (hfail : fromPayload payload = none ∨
      ∃ m, fromPayload payload = some m ∧ decodeForwardMessage m.Msg = none) :
    (handleForwardMsg (some pv) env peer payload).handled = true ∧
    (handleForwardMsg (some pv) env peer payload).err.isSome = true ∧
    (handleForwardMsg (some pv) env peer payload).events = [] := by
  rcases hfail with h | ⟨m, h1, h2⟩
  · simp [handleForwardMsg, hid, h]
  · simp [handleForwardMsg, hid, h1, h2]

/-- Witness for C5 at a concrete malformed payload. -/
theorem c5_handleForwardMsg_decode_failure_witness :
    (handleForwardMsg (some ⟨1⟩) ⟨fun _ _ _ _ => none, fun _ => none⟩ ⟨1⟩
        [1]).handled = true ∧
    (handleForwardMsg (some ⟨1⟩) ⟨fun _ _ _ _ => none, fun _ => none⟩ ⟨1⟩
        [1]).err.isSome = true ∧
    (handleForwardMsg (some ⟨1⟩) ⟨fun _ _ _ _ => none, fun _ => none⟩ ⟨1⟩
        [1]).events = [] :=
  c5_handleForwardMsg_decode_failure ⟨1⟩ ⟨1⟩ _ [1] rfl (Or.inl (by decide))

/-- C6: when the decoded inner code is the enode-certificate code, the
certificate handling runs and its failure makes `handleForwardMsg` return
`(handled=true, that error)` with no multicast performed. -/
theorem c6_handleForwardMsg_cert_failure (pv peer : Peer) (env : ProxyEnv)
    (payload : List Nat) (m : IstMessage) (fwd : ForwardMessage) (e : Err)
    (hid : pv.nodeId = peer.nodeId)
    (h1 : fromPayload payload = some m)
    (h2 : decodeForwardMessage m.Msg = some fwd)
    (hc : fwd.Code = EnodeCertificateMsg)
    (he : env.enodeCertResult fwd.Msg = some e) :
    handleForwardMsg (some pv) env peer payload
      = ⟨true, some e, [PEvent.enodeCertCheck fwd.Msg], some pv⟩ := by
  simp [handleForwardMsg, hid, h1, h2, hc, he]

/-- Witness for C6 at a concrete forwarded enode certificate rejected by the
validation. -/
theorem c6_handleForwardMsg_cert_failure_witness :
    handleForwardMsg (some ⟨1⟩)
        ⟨fun _ _ _ _ => none, fun _ => some (.external 3)⟩ ⟨1⟩
        (messagePayload ⟨20, encodeForwardMessage ⟨23, [], [7]⟩, 3, []⟩)
      = ⟨true, some (.external 3), [PEvent.enodeCertCheck [7]], some ⟨1⟩⟩ :=
  c6_handleForwardMsg_cert_failure ⟨1⟩ ⟨1⟩
    ⟨fun _ _ _ _ => none, fun _ => some (.external 3)⟩
    (messagePayload ⟨20, encodeForwardMessage ⟨23, [], [7]⟩, 3, []⟩)
    ⟨20, encodeForwardMessage ⟨23, [], [7]⟩, 3, []⟩ ⟨23, [], [7]⟩
    (.external 3) rfl (by decide) (by decide) (by decide) rfl

/-- All validator addresses grouped in a proxy-peer map. -/
def mapAddrs (m : List (Peer × List Nat)) : List Nat :=
  (m.map Prod.snd).flatten

theorem mapAddrs_cons (q : Peer) (qa : List Nat) (tl : List (Peer × List Nat)) :
    mapAddrs ((q, qa) :: tl) = qa ++ mapAddrs tl := by
  simp [mapAddrs]

/-- Every transmission of the send loop goes to a key of the map, carries the
resolved (override-or-shared) payload inside a `ForwardMessage` with that
key's grouped addresses, and uses the forward-message code. -/
theorem sendLoop_call_shape (a code : Nat) (payload : Option (List Nat))
    (psp : List (Nat × Option (List Nat))) :
    ∀ (m : List (Peer × List Nat)) (c : UnicastCall),
      c ∈ sendLoop a code payload psp m →
      ∃ dests mm, (c.peer, dests) ∈ m ∧
        resolvePayload psp payload c.peer = some mm ∧
        c.payload = messagePayload ⟨FwdMsg,
          encodeForwardMessage ⟨code, dests, mm⟩, a, []⟩ ∧
        c.code = FwdMsg := by
  intro m
  induction m with
  | nil => intro c hc; simp [sendLoop] at hc
  | cons e tl ih =>
    obtain ⟨p, qa⟩ := e
    intro c hc
    cases hres : resolvePayload psp payload p with
    | none =>
      simp only [sendLoop, hres] at hc
      obtain ⟨dests, mm, hmem, h2, h3, h4⟩ := ih c hc
      exact ⟨dests, mm, List.mem_cons_of_mem _ hmem, h2, h3, h4⟩
    | some mm0 =>
      simp only [sendLoop, hres] at hc
      rcases List.mem_cons.mp hc with hceq | hctl
      · subst hceq
        exact ⟨qa, mm0, List.mem_cons_self _ _, hres, rfl, rfl⟩
      · obtain ⟨dests, mm, hmem, h2, h3, h4⟩ := ih c hctl
        exact ⟨dests, mm, List.mem_cons_of_mem _ hmem, h2, h3, h4⟩

/-- Every map key whose resolved payload is present receives a transmission. -/
theorem sendLoop_covers (a code : Nat) (payload : Option (List Nat))
    (psp : List (Nat × Option (List Nat))) :
    ∀ (m : List (Peer × List Nat)) (p : Peer) (qa mm : List Nat),
      (p, qa) ∈ m → resolvePayload psp payload p = some mm →
      ∃ c ∈ sendLoop a code payload psp m, c.peer = p := by
  intro m
  induction m with
  | nil => intro p qa mm h _; simp at h
  | cons e tl ih =>
    obtain ⟨r, ra⟩ := e
    intro p qa mm hmem hres
    rcases List.mem_cons.mp hmem with heq | htl
    · injection heq with h1 h2
      subst h1
      simp only [sendLoop, hres]
      exact ⟨_, List.mem_cons_self _ _, rfl⟩
    · cases hres2 : resolvePayload psp payload r with
      | none =>
        simp only [sendLoop, hres2]
        exact ih p qa mm htl hres
      | some mr =>
        simp only [sendLoop, hres2]
        obtain ⟨c, hc, hcp⟩ := ih p qa mm htl hres
        exact ⟨c, List.mem_cons_of_mem _ hc, hcp⟩

theorem setPeerNil_mem (m : List (Peer × List Nat)) (p q : Peer)
    (h : q = p ∨ ∃ qa, (q, qa) ∈ m) : ∃ qa, (q, qa) ∈ setPeerNil m p := by
  induction m with
  | nil =>
    rcases h with rfl | ⟨qa, hqa⟩
    · exact ⟨[], by simp [setPeerNil]⟩
    · simp at hqa
  | cons e tl ih =>
    obtain ⟨r, ra⟩ := e
    simp only [setPeerNil]
    by_cases hrp : r = p
    · rw [if_pos hrp]
      rcases h with rfl | ⟨qa, hqa⟩
      · exact ⟨[], by rw [← hrp]; exact List.mem_cons_self _ _⟩
      · rcases List.mem_cons.mp hqa with heq | htl
        · injection heq with h1 h2
          subst h1
          exact ⟨[], List.mem_cons_self _ _⟩
        · exact ⟨qa, List.mem_cons_of_mem _ htl⟩
    · rw [if_neg hrp]
      rcases h with rfl | ⟨qa, hqa⟩
      · obtain ⟨qa, h2⟩ := ih (Or.inl rfl)
        exact ⟨qa, List.mem_cons_of_mem _ h2⟩
      · rcases List.mem_cons.mp hqa with heq | htl
        · injection heq with h1 h2
          subst h1
          exact ⟨ra, List.mem_cons_self _ _⟩
        · obtain ⟨qa2, h2⟩ := ih (Or.inr ⟨qa, htl⟩)
          exact ⟨qa2, List.mem_cons_of_mem _ h2⟩

theorem foldl_setPeerNil_mem (ps : List Peer) :
    ∀ (acc : List (Peer × List Nat)) (q : Peer),
      (q ∈ ps ∨ ∃ qa, (q, qa) ∈ acc) →
      ∃ qa, (q, qa) ∈ ps.foldl setPeerNil acc := by
  induction ps with
  | nil =>
    intro acc q h
    rcases h with h | h
    · simp at h
    · simpa using h
  | cons p ps ih =>
    intro acc q h
    simp only [List.foldl_cons]
    apply ih
    rcases h with h | h
    · rcases List.mem_cons.mp h with heq | hps
      · exact Or.inr (setPeerNil_mem acc p q (Or.inl heq))
      · exact Or.inl hps
    · exact Or.inr (setPeerNil_mem acc p q (Or.inr h))

theorem setPeerNil_snd_nil (m : List (Peer × List Nat)) (p : Peer)
    (h : ∀ e ∈ m, e.2 = ([] : List Nat)) :
    ∀ e ∈ setPeerNil m p, e.2 = ([] : List Nat) := by
  induction m with
  | nil =>
    intro e he
    simp only [setPeerNil, List.mem_singleton] at he
    rw [he]
  | cons f tl ih =>
    obtain ⟨q, qa⟩ := f
    intro e he
    simp only [setPeerNil] at he
    by_cases hqp : q = p
    · rw [if_pos hqp] at he
      rcases List.mem_cons.mp he with rfl | htl
      · rfl
      · exact h e (List.mem_cons_of_mem _ htl)
    · rw [if_neg hqp] at he
      rcases List.mem_cons.mp he with rfl | htl
      · exact h _ (List.mem_cons_self _ _)
      · exact ih (fun e2 he2 => h e2 (List.mem_cons_of_mem _ he2)) e htl

theorem foldl_setPeerNil_snd_nil (ps : List Peer) :
    ∀ acc, (∀ e ∈ acc, e.2 = ([] : List Nat)) →
      ∀ e ∈ ps.foldl setPeerNil acc, e.2 = ([] : List Nat) := by
  induction ps with
  | nil => intro acc hacc e he; exact hacc e (by simpa using he)
  | cons p ps ih =>
    intro acc hacc e he
    simp only [List.foldl_cons] at he
    exact ih (setPeerNil acc p) (setPeerNil_snd_nil acc p hacc) e he

theorem explicitPeersMap_snd_nil (ps : List Peer) :
    ∀ e ∈ explicitPeersMap ps, e.2 = ([] : List Nat) :=
  foldl_setPeerNil_snd_nil ps [] (by simp)

/-- A validator address whose assignment entry names no proxy, or a proxy
without a connected peer, is skipped by the map-building loop. -/
def droppedAssignment : Nat × Option proxy → Bool
  | (_, none) => true
  | (_, some q) => q.peer.isNone

theorem addAddrToMap_addrs :
    ∀ (m : List (Peer × List Nat)) (p : Peer) (a addr : Nat),
      addr ∈ mapAddrs (addAddrToMap m p a) → addr ∈ mapAddrs m ∨ addr = a := by
  intro m
  induction m with
  | nil =>
    intro p a addr h
    simp [addAddrToMap, mapAddrs] at h
    exact Or.inr h
  | cons e tl ih =>
    obtain ⟨q, qa⟩ := e
    intro p a addr h
    simp only [addAddrToMap] at h
    by_cases hqp : q = p
    · rw [if_pos hqp] at h
      rw [mapAddrs_cons, List.mem_append] at h
      rcases h with h | h
      · rw [List.mem_append, List.mem_singleton] at h
        rcases h with h | h
        · exact Or.inl (by rw [mapAddrs_cons, List.mem_append]; exact Or.inl h)
        · exact Or.inr h
      · exact Or.inl (by rw [mapAddrs_cons, List.mem_append]; exact Or.inr h)
    · rw [if_neg hqp] at h
      rw [mapAddrs_cons, List.mem_append] at h
      rcases h with h | h
      · exact Or.inl (by rw [mapAddrs_cons, List.mem_append]; exact Or.inl h)
      · rcases ih p a addr h with h2 | h2
        · exact Or.inl (by rw [mapAddrs_cons, List.mem_append]; exact Or.inr h2)
        · exact Or.inr h2

/-- Every address grouped by the assignment-map loop either was already in
the accumulator or resolved, in the assignment list, to a proxy with a
connected peer. -/
theorem buildAssignmentMapAux_addrs :
    ∀ (l : List (Nat × Option proxy)) (acc : List (Peer × List Nat)) (addr : Nat),
      addr ∈ mapAddrs (buildAssignmentMapAux acc l) →
      addr ∈ mapAddrs acc ∨ ∃ q pe, (addr, some q) ∈ l ∧ q.peer = some pe := by
  intro l
  induction l with
  | nil => intro acc addr h; exact Or.inl h
  | cons e tl ih =>
    obtain ⟨v, pr⟩ := e
    intro acc addr h
    cases pr with
    | none =>
      simp only [buildAssignmentMapAux] at h
      rcases ih acc addr h with h2 | ⟨q, pe, hq, hpe⟩
      · exact Or.inl h2
      · exact Or.inr ⟨q, pe, List.mem_cons_of_mem _ hq, hpe⟩
    | some prx =>
      cases hpp : prx.peer with
      | none =>
        simp only [buildAssignmentMapAux, hpp] at h
        rcases ih acc addr h with h2 | ⟨q, pe, hq, hpe⟩
        · exact Or.inl h2
        · exact Or.inr ⟨q, pe, List.mem_cons_of_mem _ hq, hpe⟩
      | some pe =>
        simp only [buildAssignmentMapAux, hpp] at h
        rcases ih _ addr h with h2 | ⟨q, pe2, hq, hpe⟩
        · rcases addAddrToMap_addrs acc pe v addr h2 with h3 | rfl
          · exact Or.inl h3
          · exact Or.inr ⟨prx, pe, List.mem_cons_self _ _, hpp⟩
        · exact Or.inr ⟨q, pe2, List.mem_cons_of_mem _ hq, hpe⟩

/-- When every assignment entry is dropped, the map-building loop adds
nothing. -/
theorem buildAssignmentMapAux_all_dropped :
    ∀ (l : List (Nat × Option proxy)) (acc : List (Peer × List Nat)),
      (∀ ap ∈ l, droppedAssignment ap = true) → buildAssignmentMapAux acc l = acc := by
  intro l
  induction l with
  | nil => intro acc _; rfl
  | cons e tl ih =>
    obtain ⟨v, pr⟩ := e
    intro acc hall
    have hd : droppedAssignment (v, pr) = true := hall _ (List.mem_cons_self _ _)
    cases pr with
    | none =>
      simp only [buildAssignmentMapAux]
      exact ih acc (fun ap hap => hall ap (List.mem_cons_of_mem _ hap))
    | some prx =>
      have hpn : prx.peer = none := by
        simpa [droppedAssignment, Option.isNone_iff_eq_none] using hd
      simp only [buildAssignmentMapAux, hpn]
      exact ih acc (fun ap hap => hall ap (List.mem_cons_of_mem _ hap))

/-- C7: with no explicit relay list and a successful assignment lookup, the
send returns no error; if every destination's assignment is dropped (no
proxy, or proxy without a live peer) the whole call returns `nil` with zero
transmissions; and every address that reaches the proxy-peer map resolved to
a proxy with a live peer (dropped addresses are silently omitted). -/
theorem c7_SendForwardMsg_drops_unassigned
    (g : List Nat → Except Err (List (Nat × Option proxy))) (a : Nat)
    (u : Peer → List Nat → Nat → Option Err) (vals : List Nat) (code : Nat)
    (payload : Option (List Nat)) (psp : List (Nat × Option (List Nat)))
    (asg : List (Nat × Option proxy))
    (hok : g vals = Except.ok asg) :
    (SendForwardMsg ⟨g, a, u⟩ none vals code payload psp).fst = none ∧
    ((∀ ap ∈ asg, droppedAssignment ap = true) →
      SendForwardMsg ⟨g, a, u⟩ none vals code payload psp = (none, [])) ∧
    (∀ addr, addr ∈ mapAddrs (buildAssignmentMap asg) →
      ∃ q pe, (addr, some q) ∈ asg ∧ q.peer = some pe) := by
  refine ⟨?_, ?_, ?_⟩
  · by_cases hb : buildAssignmentMap asg = [] <;>
      simp [SendForwardMsg, hok, hb]
  · intro hall
    have hempty : buildAssignmentMap asg = [] :=
      buildAssignmentMapAux_all_dropped asg [] hall
    simp [SendForwardMsg, hok, hempty]
  · intro addr haddr
    rcases buildAssignmentMapAux_addrs asg [] addr haddr with h | h
    · simp [mapAddrs] at h
    · exact h

/-- Witness for C7: one destination assigned to a proxy with no live peer
gives a nil error and zero transmissions. -/
theorem c7_SendForwardMsg_drops_unassigned_witness :
    (SendForwardMsg ⟨fun _ => Except.ok [(3, some ⟨1, 2, none, 0⟩)], 0,
        fun _ _ _ => none⟩ none [3] 9 (some [5]) []).fst = none ∧
    SendForwardMsg ⟨fun _ => Except.ok [(3, some ⟨1, 2, none, 0⟩)], 0,
        fun _ _ _ => none⟩ none [3] 9 (some [5]) [] = (none, []) := by
  have h := c7_SendForwardMsg_drops_unassigned
    (fun _ => Except.ok [(3, some ⟨1, 2, none, 0⟩)]) 0 (fun _ _ _ => none)
    [3] 9 (some [5]) [] [(3, some ⟨1, 2, none, 0⟩)] rfl
  exact ⟨h.1, h.2.1 (by decide)⟩

/-- C9: every transmission of `SendForwardMsg` carries, as the inner payload
of its `ForwardMessage` envelope, the per-relay override when
`proxySpecificPayloads` has an entry for that relay's node id and the shared
payload otherwise (`resolvePayload` is exactly that selection). -/
theorem c9_SendForwardMsg_payload_selection (env : PVEnv)
    (proxyPeers : Option (List Peer)) (vals : List Nat) (code : Nat)
    (payload : Option (List Nat)) (psp : List (Nat × Option (List Nat)))
    (c : UnicastCall)
    (hc : c ∈ (SendForwardMsg env proxyPeers vals code payload psp).snd) :
    ∃ dests mm, resolvePayload psp payload c.peer = some mm ∧
      c.payload = messagePayload ⟨FwdMsg,
        encodeForwardMessage ⟨code, dests, mm⟩, env.backendAddress, []⟩ ∧
      c.code = FwdMsg := by
  cases proxyPeers with
  | none =>
    simp only [SendForwardMsg] at hc
    cases hg : env.getValidatorAssignments vals with
    | error e => simp only [hg] at hc; simp at hc
    | ok asg =>
      simp only [hg] at hc
      by_cases hb : buildAssignmentMap asg = []
      · rw [if_pos hb] at hc; simp at hc
      · rw [if_neg hb] at hc
        obtain ⟨dests, mm, _, h2, h3, h4⟩ :=
          sendLoop_call_shape env.backendAddress code payload psp _ c hc
        exact ⟨dests, mm, h2, h3, h4⟩
  | some ps =>
    simp only [SendForwardMsg] at hc
    obtain ⟨dests, mm, _, h2, h3, h4⟩ :=
      sendLoop_call_shape env.backendAddress code payload psp _ c hc
    exact ⟨dests, mm, h2, h3, h4⟩

/-- Witness for C9: a relay with an override entry receives the override. -/
theorem c9_SendForwardMsg_payload_selection_witness :
    ∃ dests mm,
      resolvePayload [(1, some [9])] (some [5]) (⟨1⟩ : Peer) = some mm ∧
      messagePayload ⟨FwdMsg, encodeForwardMessage ⟨9, [], [9]⟩, 0, []⟩
        = messagePayload ⟨FwdMsg, encodeForwardMessage ⟨9, dests, mm⟩, 0, []⟩ ∧
      FwdMsg = FwdMsg :=
  c9_SendForwardMsg_payload_selection
    ⟨fun _ => Except.ok [], 0, fun _ _ _ => none⟩ (some [⟨1⟩, ⟨2⟩]) [] 9
    (some [5]) [(1, some [9])]
    ⟨⟨1⟩, messagePayload ⟨FwdMsg, encodeForwardMessage ⟨9, [], [9]⟩, 0, []⟩,
      FwdMsg⟩ (by decide)

/-- C10: with an explicit relay-peer list, `SendForwardMsg` never consults
the assignment lookup (the result is unchanged under any lookup function and
any destination-address argument), and every envelope it sends carries an
empty destination-address list. -/
theorem c10_SendForwardMsg_explicit_peers
    (g g' : List Nat → Except Err (List (Nat × Option proxy))) (a : Nat)
    (u : Peer → List Nat → Nat → Option Err) (ps : List Peer)
    (vals vals' : List Nat) (code : Nat) (payload : Option (List Nat))
    (psp : List (Nat × Option (List Nat))) :
    SendForwardMsg ⟨g, a, u⟩ (some ps) vals code payload psp
      = SendForwardMsg ⟨g', a, u⟩ (some ps) vals' code payload psp ∧
    ∀ c ∈ (SendForwardMsg ⟨g, a, u⟩ (some ps) vals code payload psp).snd,
      ∃ mm, resolvePayload psp payload c.peer = some mm ∧
        c.payload = messagePayload ⟨FwdMsg,
          encodeForwardMessage ⟨code, [], mm⟩, a, []⟩ := by
  constructor
  · rfl
  · intro c hc
    simp only [SendForwardMsg] at hc
    obtain ⟨dests, mm, hmem, h2, h3, h4⟩ :=
      sendLoop_call_shape a code payload psp (explicitPeersMap ps) c hc
    have hdnil : dests = [] := explicitPeersMap_snd_nil ps (c.peer, dests) hmem
    subst hdnil
    exact ⟨mm, h2, h3⟩

/-- Witness for C10 at a concrete explicit relay list. -/
theorem c10_SendForwardMsg_explicit_peers_witness :
    ∃ mm, resolvePayload [] (some [5]) (⟨2⟩ : Peer) = some mm ∧
      messagePayload ⟨FwdMsg, encodeForwardMessage ⟨9, [], [5]⟩, 0, []⟩
        = messagePayload ⟨FwdMsg, encodeForwardMessage ⟨9, [], mm⟩, 0, []⟩ :=
  (c10_SendForwardMsg_explicit_peers (fun _ => Except.ok [])
    (fun _ => Except.error (.external 0)) 0 (fun _ _ _ => none) [⟨1⟩, ⟨2⟩]
    [7] [] 9 (some [5]) []).2
    ⟨⟨2⟩, messagePayload ⟨FwdMsg, encodeForwardMessage ⟨9, [], [5]⟩, 0, []⟩,
      FwdMsg⟩ (by decide)

/-- Environment for the C2 counterexample: transmission to relay 1 fails at
the transport, transmission to relay 2 succeeds. -/
def envC2 : PVEnv :=
  ⟨fun _ => Except.ok [], 0,
    fun p _ _ => if p = ⟨1⟩ then some (.external 42) else none⟩

/-- C2 counterexample: sending to the two relays 1 and 2 while the transport
fails for relay 1 still attempts both transmissions, but the call returns
`nil`, not the first transmission error — the `Unicast` outcome is discarded
by the source, so the claim's "returns the first error encountered" is false
here. -/
theorem c2_counterexample :
    ((SendForwardMsg envC2 (some [⟨1⟩, ⟨2⟩]) [] 9 (some [5]) []).snd.map
        (fun c => envC2.unicastResult c.peer c.payload c.code))
      = [some (.external 42), none] ∧
    (SendForwardMsg envC2 (some [⟨1⟩, ⟨2⟩]) [] 9 (some [5]) []).fst = none ∧
    ¬ (SendForwardMsg envC2 (some [⟨1⟩, ⟨2⟩]) [] 9 (some [5]) []).fst
        = some (.external 42) := by
  decide

/-- C2 (amended): with an explicit relay list, every relay whose resolved
payload is present is transmitted to — a transport failure at one relay
neither aborts nor prevents the others, since the result does not depend on
the transport outcomes at all — but the call returns `nil` rather than the
first transmission error. -/
theorem c2_SendForwardMsg_transport_failure_not_surfaced
    (g : List Nat → Except Err (List (Nat × Option proxy))) (a : Nat)
    (u u' : Peer → List Nat → Nat → Option Err) (ps : List Peer)
    (vals : List Nat) (code : Nat) (payload : Option (List Nat))
    (psp : List (Nat × Option (List Nat))) (p : Peer) (mm : List Nat)
    (hp : p ∈ ps) (hres : resolvePayload psp payload p = some mm) :
    (SendForwardMsg ⟨g, a, u⟩ (some ps) vals code payload psp).fst = none ∧
    (∃ c ∈ (SendForwardMsg ⟨g, a, u⟩ (some ps) vals code payload psp).snd,
      c.peer = p) ∧
    (∀ pp : Option (List Peer),
      SendForwardMsg ⟨g, a, u⟩ pp vals code payload psp
        = SendForwardMsg ⟨g, a, u'⟩ pp vals code payload psp) := by
  refine ⟨rfl, ?_, fun pp => by cases pp <;> rfl⟩
  obtain ⟨qa, hqa⟩ := foldl_setPeerNil_mem ps [] p (Or.inl hp)
  simp only [SendForwardMsg]
  exact sendLoop_covers a code payload psp (explicitPeersMap ps) p qa mm hqa hres

/-- Witness for the amended C2: relay 2 is still transmitted to while the
transport fails for relay 1, and the error result is `nil` either way. -/
theorem c2_SendForwardMsg_transport_failure_not_surfaced_witness :
    (SendForwardMsg envC2 (some [⟨1⟩, ⟨2⟩]) [] 9 (some [5]) []).fst = none ∧
    (∃ c ∈ (SendForwardMsg envC2 (some [⟨1⟩, ⟨2⟩]) [] 9 (some [5]) []).snd,
      c.peer = ⟨2⟩) ∧
    (∀ pp : Option (List Peer),
      SendForwardMsg envC2 pp [] 9 (some [5]) []
        = SendForwardMsg ⟨fun _ => Except.ok [], 0, fun _ _ _ => none⟩
            pp [] 9 (some [5]) []) :=
  c2_SendForwardMsg_transport_failure_not_surfaced
    (fun _ => Except.ok []) 0
    (fun p _ _ => if p = ⟨1⟩ then some (.external 42) else none)
    (fun _ _ _ => none) [⟨1⟩, ⟨2⟩] [] 9 (some [5]) [] ⟨2⟩ [5]
    (by decide) (by decide)
